import Mathlib

/-!
Verification of the XenoChain ledger core (src/Ledger.py).

The Python source is shallowly embedded: Python floats become rational
numbers, dicts with a fixed key set become structures with `Option` fields
for optional keys, `None`/empty-string hash fields become `Option Hash`,
and mutation of `self` becomes explicit state passing.  `time.time()` is an
explicit `now` argument, and the external XLSP codec is a pair of function
fields carried in the chain state, mirroring `self.xlsp = XLSP()`.
-/

/-- Block hashes.  The Python implementation uses opaque hash strings; we
model them as naturals. -/
abbrev Hash := Nat

abbrev AgentId := String

/-- The opaque encoded profile blob produced by the external codec. -/
abbrev Scan := Nat

/-- Python `int(q)` on a rational: truncation toward zero (floor for
nonnegative arguments, ceiling for negative ones). -/
def pyInt (q : ℚ) : ℤ := if 0 ≤ q then ⌊q⌋ else ⌈q⌉

/-- The `relationships` sub-dict built by `_convert_state_to_profile`
(lines 143-148): the `dependencies` key is present iff the snapshot has a
`dependencies` key, the `agents` key iff it has `related_agents`. -/
structure Relationships where
  dependencies : Option (List Hash)
  agents : Option (List AgentId)
deriving DecidableEq

/-- A XenoLingua profile (lines 150-159): `relationships` is present only
when at least one relationship source key exists in the snapshot. -/
structure Profile where
  id : AgentId
  Wealth : ℤ
  Hunger : ℤ
  Status : ℤ
  relationships : Option Relationships
deriving DecidableEq

/-- An agent state snapshot, the `state` dict passed to `add_block`.
Optional fields are the dict keys read by `_convert_state_to_profile`
with `.get` defaults (`skills` → `[]`, `average_accuracy` → `0.5`,
`learning_iterations` → `0`) or key-presence tests. -/
structure AgentState where
  skills : Option (List String)
  average_accuracy : Option ℚ
  learning_iterations : Option ℤ
  dependencies : Option (List Hash)
  related_agents : Option (List AgentId)
deriving DecidableEq

/-- Embedding of `XenoChain._convert_state_to_profile` (lines 131-161). -/
def convert_state_to_profile (agent_id : AgentId) (state : AgentState) : Profile :=
  let skill_count : ℤ := (state.skills.getD []).length
  let accuracy : ℚ := state.average_accuracy.getD (1/2)
  let learning_iterations : ℤ := state.learning_iterations.getD 0
  let wealth : ℤ := skill_count * 100 + learning_iterations * 50
  let hunger : ℤ := max 0 (100 - pyInt (accuracy * 100))
  let status : ℤ := pyInt (accuracy * 100)
  let relationships : Option Relationships :=
    if state.dependencies.isSome || state.related_agents.isSome then
      some ⟨state.dependencies, state.related_agents⟩
    else none
  { id := agent_id, Wealth := wealth, Hunger := hunger, Status := status,
    relationships := relationships }

/-- A decoded range mapping `{Wealth:[lo,hi], Hunger:[lo,hi], Status:[lo,hi]}`
returned by `xlsp.decode`; the decoder returning an empty/falsy mapping is
modelled as `none` at the call sites. -/
structure Ranges where
  Wealth : ℚ × ℚ
  Hunger : ℚ × ℚ
  Status : ℚ × ℚ
deriving DecidableEq

/-- A block of the chain.  `BlockRecord` itself is constructed outside
src/Ledger.py; its field set follows the spec's data model (§3): agent id,
scan, timestamp, optional previous hash, dependency hashes, metadata, and
the block's own hash. -/
structure BlockRecord where
  agent_id : AgentId
  scan : Scan
  timestamp : ℚ
  prev_hash : Option Hash
  dependencies : List Hash
  metadata : List (String × String)
  hash : Hash
deriving DecidableEq

/-- Mixing step of the modelled hash. -/
def mix (a b : Nat) : Nat := a * 1000003 + b

/-- Deterministic hash of a string, used by the modelled block hash. -/
def hashStr (s : String) : Nat := s.data.foldl (fun a c => mix a c.toNat) 1

/-- Deterministic hash of a rational. -/
def hashQ (q : ℚ) : Nat :=
  mix (mix 2 q.num.natAbs) (if q.num < 0 then q.den + 1 else q.den)

/-- Modelled from the spec: `BlockRecord.hash` is computed by code missing
from src/ ("`hash`: deterministic identifier computed over all of the
above fields", §3); we model it as a concrete deterministic function of
every other field. -/
def blockHash (agent_id : AgentId) (scan : Scan) (timestamp : ℚ)
    (prev_hash : Option Hash) (dependencies : List Hash)
    (metadata : List (String × String)) : Hash :=
  mix (hashStr agent_id)
    (mix scan
      (mix (hashQ timestamp)
        (mix (match prev_hash with | none => 0 | some h => h + 1)
          (mix (dependencies.foldl mix 3)
            (metadata.foldl (fun a kv => mix a (mix (hashStr kv.1) (hashStr kv.2))) 5)))))

/-- The external XLSP codec, carried by the chain as `self.xlsp` and
treated as an opaque collaborator: `decode` returning `none` models the
empty/falsy range mapping. -/
structure XLSP where
  encode : Profile → ℚ → Scan
  decode : Scan → ℚ → Option Ranges

/-- Embedding of the `XenoChain` state (lines 4-8): global block sequence, per-agent index
(a `defaultdict(list)`, modelled as a total function that is `[]` off its
support), hash index, and the codec. -/
structure XenoChain where
  blocks : List BlockRecord
  agent_blocks : AgentId → List BlockRecord
  hash_index : Hash → Option BlockRecord
  xlsp : XLSP

/-- The reconstructed agent state returned by
`_convert_ranges_to_state` (lines 178-190). -/
structure ReconState where
  agent_id : AgentId
  skills : List String
  average_accuracy : ℚ
  learning_iterations : ℤ
  needs_training : Bool
  timestamp : ℚ
  dependencies : Option (List Hash)
deriving DecidableEq

/-- Embedding of `XenoChain._convert_ranges_to_state` (lines 163-191).  Every in-repo
call site passes a block, so the `block=None` default is dropped.  An
empty/falsy `ranges` mapping is the `none` case. -/
def convert_ranges_to_state (agent_id : AgentId) (ranges : Option Ranges)
    (block : BlockRecord) : Option ReconState :=
  match ranges with
  | none => none
  | some r =>
    let wealth : ℚ := (r.Wealth.1 + r.Wealth.2) / 2
    let hunger : ℚ := (r.Hunger.1 + r.Hunger.2) / 2
    let status : ℚ := (r.Status.1 + r.Status.2) / 2
    let skill_count : ℤ := max 1 (pyInt (wealth / 100))
    let accuracy : ℚ := status / 100
    let learning_iterations : ℤ := max 0 (pyInt ((wealth - skill_count * 100) / 50))
    some
      { agent_id := agent_id
        skills := (List.range skill_count.toNat).map (fun i => "skill_" ++ toString i)
        average_accuracy := accuracy
        learning_iterations := learning_iterations
        needs_training := decide (hunger > 50)
        timestamp := block.timestamp
        dependencies := if block.dependencies = [] then none else some block.dependencies }

/-- Embedding of `XenoChain.add_block` (lines 10-38).  `now` is the value of
`time.time()` at construction; the returned pair is the updated chain and
`block.hash`. -/
def XenoChain.add_block (c : XenoChain) (agent_id : AgentId) (state : AgentState)
    (delta_t : ℚ) (dependencies : Option (List Hash))
    (metadata : Option (List (String × String))) (now : ℚ) : XenoChain × Hash :=
  let profile := convert_state_to_profile agent_id state
  let scan := c.xlsp.encode profile delta_t
  let prev_hash : Option Hash := (c.agent_blocks agent_id).getLast?.map (·.hash)
  let deps := dependencies.getD []
  let md := metadata.getD []
  let h := blockHash agent_id scan now prev_hash deps md
  let block : BlockRecord :=
    { agent_id := agent_id, scan := scan, timestamp := now, prev_hash := prev_hash,
      dependencies := deps, metadata := md, hash := h }
  (⟨c.blocks ++ [block],
    fun a => if a = agent_id then c.agent_blocks a ++ [block] else c.agent_blocks a,
    fun x => if x = h then some block else c.hash_index x,
    c.xlsp⟩, h)

/-- Embedding of `XenoChain.get_state` (lines 40-59). -/
def XenoChain.get_state (c : XenoChain) (agent_id : AgentId) (delta_t : ℚ)
    (block_hash : Option Hash) : Option ReconState :=
  match block_hash with
  | some bh =>
    match c.hash_index bh with
    | none => none
    | some block =>
      if block.agent_id ≠ agent_id then none
      else convert_ranges_to_state agent_id (c.xlsp.decode block.scan delta_t) block
  | none =>
    match (c.agent_blocks agent_id).getLast? with
    | none => none
    | some block => convert_ranges_to_state agent_id (c.xlsp.decode block.scan delta_t) block

/-- Python `min(blocks, key=...)` (line 77): left fold keeping the current
best on ties, so the first element attaining the minimum key wins; `none`
on the empty list (Python would raise, but line 73 guards emptiness). -/
def pyMinBy (key : BlockRecord → ℚ) : List BlockRecord → Option BlockRecord
  | [] => none
  | b :: bs => some (bs.foldl (fun best x => if key x < key best then x else best) b)

/-- Embedding of `XenoChain.get_agent_at_time` (lines 70-83). -/
def XenoChain.get_agent_at_time (c : XenoChain) (agent_id : AgentId)
    (timestamp : ℚ) (delta_t : ℚ) : Option ReconState :=
  match pyMinBy (fun b => |b.timestamp - timestamp|) (c.agent_blocks agent_id) with
  | none => none
  | some closest_block =>
      convert_ranges_to_state agent_id (c.xlsp.decode closest_block.scan delta_t) closest_block

/-- Embedding of the `ConsensusNode` state (lines 196-203).  Peers are kept out of the
node state and modelled separately at `broadcast_block`, whose claim is
about the fan-out control flow rather than peer node state. -/
structure ConsensusNode where
  node_id : String
  chain : XenoChain
  pending_blocks : List BlockRecord

/-- Embedding of `ConsensusNode.validate_block` (lines 233-254), a pure function of the
current index state: it reads `self.chain.hash_index` and assigns
nothing. -/
def ConsensusNode.validate_block (n : ConsensusNode) (block : BlockRecord) : Bool :=
  if (n.chain.hash_index block.hash).isSome then true
  else
    match block.prev_hash with
    | some ph =>
      match n.chain.hash_index ph with
      | none => false
      | some prev_block =>
        if prev_block.agent_id ≠ block.agent_id then false
        else block.dependencies.all (fun d => (n.chain.hash_index d).isSome)
    | none => block.dependencies.all (fun d => (n.chain.hash_index d).isSome)

/-- Embedding of `ConsensusNode.receive_block` (lines 215-231): returns the accepted
flag and the updated node. -/
def ConsensusNode.receive_block (n : ConsensusNode) (block : BlockRecord) :
    Bool × ConsensusNode :=
  if n.validate_block block then
    let c := n.chain
    (true,
     { n with
       chain :=
        ⟨c.blocks ++ [block],
         fun a => if a = block.agent_id then c.agent_blocks a ++ [block]
                  else c.agent_blocks a,
         fun h => if h = block.hash then some block else c.hash_index h,
         c.xlsp⟩,
       pending_blocks := n.pending_blocks.filter (fun b => b.hash ≠ block.hash) })
  else
    (false, { n with pending_blocks := n.pending_blocks ++ [block] })

/-- Embedding of `ConsensusNode.broadcast_block` (lines 210-213): a plain `for` loop
over the peers, awaiting each peer's `receive_block` in turn with no
per-peer exception handling, so a raised error propagates out of the loop.
Per the spec's peer interface (§6) a peer is a fallible
`receive_block : Block → bool`; the returned list holds the outcome of
each peer that was actually contacted. -/
def broadcast_block (peers : List (BlockRecord → Except String Bool))
    (block : BlockRecord) : List (Except String Bool) :=
  match peers with
  | [] => []
  | p :: ps =>
    match p block with
    | .ok r => .ok r :: broadcast_block ps block
    | .error e => [.error e]

/-! ## Concrete sample objects used by witnesses and counterexamples -/

/-- A trivial codec instance: constant encode, decoder yielding the empty
mapping. -/
def constXLSP : XLSP := ⟨fun _ _ => 0, fun _ _ => none⟩

/-- The freshly initialised chain of `XenoChain.__init__`. -/
def emptyChain : XenoChain := ⟨[], fun _ => [], fun _ => none, constXLSP⟩

/-- A freshly initialised consensus node. -/
def emptyNode : ConsensusNode := ⟨"n1", emptyChain, []⟩

/-- A concrete well-formed first block for agent `"a"`. -/
def b0 : BlockRecord := ⟨"a", 0, 0, none, [], [], 7⟩

/-- A block whose `prev_hash` points at a hash absent from every sample
index, so validation rejects it. -/
def badBlock : BlockRecord := ⟨"a", 0, 0, some 999, [], [], 5⟩

/-- A node that has already accepted `b0`. -/
def nodeWithB0 : ConsensusNode :=
  ⟨"n1", ⟨[b0], fun a => if a = "a" then [b0] else [],
    fun h => if h = 7 then some b0 else none, constXLSP⟩, []⟩

/-- A snapshot whose accuracy has a fractional percentage, separating
rounding from truncation. -/
def cexState : AgentState := ⟨none, some (567/1000), none, none, none⟩

/-- The spec example snapshot with accuracy pinned to 1 (an integral
percentage, where rounding and truncation agree). -/
def exState : AgentState := ⟨some ["s1", "s2"], some 1, some 3, none, none⟩

/-- A peer whose `receive_block` raises. -/
def failPeer : BlockRecord → Except String Bool := fun _ => .error "down"

/-- A peer whose `receive_block` accepts. -/
def okPeer : BlockRecord → Except String Bool := fun _ => .ok true

/-- One `add_block` call's inputs: the snapshot, the decay parameter, the
optional dependency list and metadata, and the construction-time clock
value. -/
structure AppendInput where
  state : AgentState
  delta_t : ℚ
  dependencies : Option (List Hash)
  metadata : Option (List (String × String))
  now : ℚ

/-- A sequence of consecutive `add_block` calls for one agent. -/
def addBlocks (c : XenoChain) (aid : AgentId) : List AppendInput → XenoChain
  | [] => c
  | inp :: rest =>
    addBlocks
      (c.add_block aid inp.state inp.delta_t inp.dependencies inp.metadata inp.now).1
      aid rest

/-- The predicate `linkedFrom p l`: the first block of `l` has `prev_hash = p`
and each later block's `prev_hash` is the hash of its predecessor. -/
def linkedFrom : Option Hash → List BlockRecord → Prop
  | _, [] => True
  | p, b :: bs => b.prev_hash = p ∧ linkedFrom (some b.hash) bs

/-- The spec's selection rule for `get_agent_at_time`, in its own words:
the block of the sequence minimizing `|timestamp - t|`, ties broken in
favor of the block encountered first in sequence order — i.e. the first
block that is a global minimizer. -/
def specClosestBlock (t : ℚ) (l : List BlockRecord) : Option BlockRecord :=
  l.find? (fun b => decide (∀ x ∈ l, |b.timestamp - t| ≤ |x.timestamp - t|))

/-- Two concrete `add_block` inputs for the C5 witness. -/
def inp1 : AppendInput := ⟨⟨none, none, none, none, none⟩, 1, none, none, 0⟩

/-- A second concrete `add_block` input for the C5 witness. -/
def inp2 : AppendInput := ⟨⟨some ["s1"], none, some 2, none, none⟩, 1, none, none, 1⟩

/-! ## Helper lemmas -/

theorem pyInt_eq_floor {q : ℚ} (h : 0 ≤ q) : pyInt q = ⌊q⌋ := if_pos h

theorem pyInt_nonpos {q : ℚ} (h : ¬ 0 ≤ q) : pyInt q ≤ 0 := by
  rw [pyInt, if_neg h]
  exact Int.ceil_le.mpr (by push_cast; linarith)

theorem max_one_pyInt (q : ℚ) : max 1 (pyInt q) = max 1 ⌊q⌋ := by
  by_cases h : 0 ≤ q
  · rw [pyInt_eq_floor h]
  · have h1 := pyInt_nonpos h
    have h2 : ⌊q⌋ ≤ 0 := Int.floor_nonpos (by linarith)
    omega

theorem max_zero_pyInt (q : ℚ) : max 0 (pyInt q) = max 0 ⌊q⌋ := by
  by_cases h : 0 ≤ q
  · rw [pyInt_eq_floor h]
  · have h1 := pyInt_nonpos h
    have h2 : ⌊q⌋ ≤ 0 := Int.floor_nonpos (by linarith)
    omega

/-! ## Claims -/

/-- C2.  `validate_block` accepts a block iff its hash is already indexed,
or the `prev_hash` constraint (present in the index with the same agent,
whenever set) and every dependency hash being indexed all hold.  The
embedding `ConsensusNode.validate_block : ConsensusNode → BlockRecord →
Bool` returns only a Bool and takes no state out, mirroring that the
Python function reads `self.chain.hash_index` and assigns nothing. -/
theorem validate_block_accept_iff (n : ConsensusNode) (b : BlockRecord) :
    n.validate_block b = true ↔
      ((n.chain.hash_index b.hash).isSome = true ∨
        ((∀ p, b.prev_hash = some p →
            ∃ pb, n.chain.hash_index p = some pb ∧ pb.agent_id = b.agent_id) ∧
          ∀ d ∈ b.dependencies, (n.chain.hash_index d).isSome = true)) := by
  unfold ConsensusNode.validate_block
  by_cases hidx : (n.chain.hash_index b.hash).isSome
  · simp [hidx]
  · simp only [hidx, if_false, Bool.false_eq_true, false_or]
    cases hp : b.prev_hash with
    | none =>
      simp only [List.all_eq_true, decide_eq_true_eq]
      constructor
      · exact fun hd => ⟨fun p hps => by simp at hps, hd⟩
      · exact fun hd => hd.2
    | some ph =>
      cases hq : n.chain.hash_index ph with
      | none =>
        simp only [hq, Bool.false_eq_true, false_iff, not_and]
        intro hprev
        obtain ⟨pb, hpb, _⟩ := hprev ph rfl
        rw [hq] at hpb
        exact absurd hpb (by simp)
      | some pb =>
        by_cases hag : pb.agent_id = b.agent_id
        · simp only [hq, hag, ne_eq, not_true_eq_false, if_false, List.all_eq_true,
            decide_eq_true_eq]
          constructor
          · intro hd
            refine ⟨fun p hps => ?_, hd⟩
            obtain rfl : p = ph := by simpa using hps.symm
            exact ⟨pb, hq, hag⟩
          · exact fun hd => hd.2
        · simp only [hq, ne_eq, hag, not_false_eq_true, if_true, Bool.false_eq_true,
            false_iff, not_and]
          intro hprev
          obtain ⟨pb', hpb', hag'⟩ := hprev ph rfl
          rw [hq] at hpb'
          obtain rfl : pb = pb' := by simpa using hpb'
          exact absurd hag' hag

/-- C9.  A block whose `hash` field is an arbitrary forged value (not the
deterministic hash of its content) is accepted whenever its `prev_hash`
and dependency prerequisites are satisfied, and `receive_block` indexes it
under the forged hash: neither function ever recomputes or checks the hash
against the block's fields. -/
theorem forged_hash_accepted (n : ConsensusNode) (b : BlockRecord)
    (hnew : n.chain.hash_index b.hash = none)
    (hforged : b.hash ≠
      blockHash b.agent_id b.scan b.timestamp b.prev_hash b.dependencies b.metadata)
    (hprev : ∀ p, b.prev_hash = some p →
      ∃ pb, n.chain.hash_index p = some pb ∧ pb.agent_id = b.agent_id)
    (hdeps : ∀ d ∈ b.dependencies, (n.chain.hash_index d).isSome = true) :
    n.validate_block b = true ∧
    (n.receive_block b).1 = true ∧
    (n.receive_block b).2.chain.hash_index b.hash = some b := by
  have hv : n.validate_block b = true := by
    unfold ConsensusNode.validate_block
    rw [hnew]
    simp only [Option.isSome_none, Bool.false_eq_true, if_false]
    cases hp : b.prev_hash with
    | none => simpa [List.all_eq_true] using hdeps
    | some ph =>
      obtain ⟨pb, hpb, hag⟩ := hprev ph hp
      simp only [hpb, hag, ne_eq, not_true_eq_false, if_false, List.all_eq_true]
      simpa [List.all_eq_true] using hdeps
  refine ⟨hv, ?_, ?_⟩
  · simp [ConsensusNode.receive_block, hv]
  · simp [ConsensusNode.receive_block, hv]

/-- Witness for C9: a block over an empty index with no prerequisites and
a hash one greater than the modelled content hash is accepted and indexed
under that forged hash. -/
theorem forged_hash_accepted_witness :
    ConsensusNode.validate_block emptyNode
      ⟨"f", 0, 0, none, [], [], blockHash "f" 0 0 none [] [] + 1⟩ = true ∧
    (ConsensusNode.receive_block emptyNode
      ⟨"f", 0, 0, none, [], [], blockHash "f" 0 0 none [] [] + 1⟩).1 = true ∧
    (ConsensusNode.receive_block emptyNode
      ⟨"f", 0, 0, none, [], [], blockHash "f" 0 0 none [] [] + 1⟩).2.chain.hash_index
        (BlockRecord.hash ⟨"f", 0, 0, none, [], [], blockHash "f" 0 0 none [] [] + 1⟩) =
      some ⟨"f", 0, 0, none, [], [], blockHash "f" 0 0 none [] [] + 1⟩ :=
  forged_hash_accepted emptyNode _ rfl (Nat.succ_ne_self _)
    (fun p hp => Option.noConfusion hp) (fun d hd => absurd hd (List.not_mem_nil d))

/-- C10.  When the codec decodes the selected block's scan to an empty
range mapping, `get_state` returns the not-found value even though the
agent does have a block, so a not-found result does not imply the agent
has no blocks. -/
theorem get_state_none_on_empty_decode (c : XenoChain) (agent_id : AgentId)
    (delta_t : ℚ) (b : BlockRecord)
    (hlast : (c.agent_blocks agent_id).getLast? = some b)
    (hdec : c.xlsp.decode b.scan delta_t = none) :
    c.get_state agent_id delta_t none = none ∧ c.agent_blocks agent_id ≠ [] := by
  constructor
  · simp only [XenoChain.get_state, hlast, hdec]
    rfl
  · intro h
    rw [h] at hlast
    exact Option.noConfusion hlast

/-- Witness for C10: a chain holding one block for `"a"` whose codec
decodes everything to the empty mapping reports not-found for `"a"`. -/
theorem get_state_none_on_empty_decode_witness :
    XenoChain.get_state ⟨[b0], fun _ => [b0], fun h => if h = 7 then some b0 else none,
        constXLSP⟩ "a" 1 none = none ∧
    XenoChain.agent_blocks ⟨[b0], fun _ => [b0], fun h => if h = 7 then some b0 else none,
        constXLSP⟩ "a" ≠ [] :=
  get_state_none_on_empty_decode _ "a" 1 b0 rfl rfl

/-- Counterexample to C1: `nodeWithB0` already holds `b0` in its hash
index, yet re-delivering `b0` through `receive_block` appends it to the
global sequence again — the sequence's length grows from 1 to 2, so the
indexes are not left unchanged. -/
theorem receive_redelivery_not_noop_cex :
    (nodeWithB0.receive_block b0).1 = true ∧
    (nodeWithB0.chain.hash_index b0.hash = some b0) ∧
    (nodeWithB0.receive_block b0).2.chain.blocks.length = 2 ∧
    nodeWithB0.chain.blocks.length = 1 ∧
    (nodeWithB0.receive_block b0).2.chain.blocks ≠ nodeWithB0.chain.blocks := by
  refine ⟨rfl, rfl, rfl, rfl, fun h => ?_⟩
  have h2 : (nodeWithB0.receive_block b0).2.chain.blocks.length = 2 := rfl
  rw [h] at h2
  have h1 : nodeWithB0.chain.blocks.length = 1 := rfl
  rw [h1] at h2
  exact absurd h2 (by decide)

/-- C1 amended.  Re-delivering a block already stored in the hash index
returns `true` and leaves the hash index unchanged, but it appends the
block again to the global sequence and to the block's agent sequence, and
filters the pending list; it is not a state no-op. -/
theorem receive_redelivery_appends_duplicate (n : ConsensusNode) (b : BlockRecord)
    (h : n.chain.hash_index b.hash = some b) :
    (n.receive_block b).1 = true ∧
    (n.receive_block b).2.chain.hash_index = n.chain.hash_index ∧
    (n.receive_block b).2.chain.blocks = n.chain.blocks ++ [b] ∧
    (n.receive_block b).2.chain.agent_blocks b.agent_id =
      n.chain.agent_blocks b.agent_id ++ [b] ∧
    (n.receive_block b).2.pending_blocks =
      n.pending_blocks.filter (fun x => x.hash ≠ b.hash) := by
  have hv : n.validate_block b = true := by
    unfold ConsensusNode.validate_block
    simp [h]
  refine ⟨by simp [ConsensusNode.receive_block, hv], ?_,
    by simp [ConsensusNode.receive_block, hv],
    by simp [ConsensusNode.receive_block, hv],
    by simp [ConsensusNode.receive_block, hv]⟩
  funext x
  simp only [ConsensusNode.receive_block, hv, if_true]
  by_cases hx : x = b.hash
  · subst hx
    simp [h]
  · simp [hx]

/-- Witness for C1's amended statement at `nodeWithB0` re-receiving `b0`. -/
theorem receive_redelivery_appends_duplicate_witness :
    (nodeWithB0.receive_block b0).1 = true ∧
    (nodeWithB0.receive_block b0).2.chain.hash_index = nodeWithB0.chain.hash_index ∧
    (nodeWithB0.receive_block b0).2.chain.blocks = nodeWithB0.chain.blocks ++ [b0] ∧
    (nodeWithB0.receive_block b0).2.chain.agent_blocks b0.agent_id =
      nodeWithB0.chain.agent_blocks b0.agent_id ++ [b0] ∧
    (nodeWithB0.receive_block b0).2.pending_blocks =
      nodeWithB0.pending_blocks.filter (fun x => x.hash ≠ b0.hash) :=
  receive_redelivery_appends_duplicate nodeWithB0 b0 rfl

/-- Counterexample to C4: delivering the invalid `badBlock` twice to a
fresh node leaves two pending entries with `badBlock`'s hash, so the
pending list is not deduplicated by hash. -/
theorem pending_duplicates_cex :
    (emptyNode.receive_block badBlock).1 = false ∧
    (((emptyNode.receive_block badBlock).2.receive_block badBlock).2.pending_blocks.countP
      (fun x => x.hash == badBlock.hash)) = 2 := by
  constructor
  · rfl
  · rfl

/-- C4 amended.  When validation rejects a block, `receive_block` returns
`false` and appends the block to the pending list unconditionally — there
is no deduplication, so repeated delivery of the same invalid block keeps
adding pending entries; entries sharing a hash are only removed when a
block with that hash is later accepted. -/
theorem receive_reject_appends_pending (n : ConsensusNode) (b : BlockRecord)
    (h : n.validate_block b = false) :
    n.receive_block b = (false, { n with pending_blocks := n.pending_blocks ++ [b] }) := by
  simp [ConsensusNode.receive_block, h]

/-- Witness for C4's amended statement: the fresh node rejects `badBlock`
and appends it to its pending list. -/
theorem receive_reject_appends_pending_witness :
    emptyNode.receive_block badBlock =
      (false, { emptyNode with pending_blocks := emptyNode.pending_blocks ++ [badBlock] }) :=
  receive_reject_appends_pending emptyNode badBlock rfl

/-- Counterexample to C6: at `average_accuracy = 0.567` the code's
`status` is `int(56.7) = 56`, not `round(56.7) = 57` as the claim's
formula demands (`hunger` diverges at the same input for the same
reason). -/
theorem profile_status_not_round_cex :
    (convert_state_to_profile "a" cexState).Status ≠ round ((567 : ℚ)/1000 * 100) := by
  norm_num [convert_state_to_profile, cexState, pyInt, round_eq]

/-- C6 amended.  `_convert_state_to_profile` maps a snapshot to
`wealth = skillCount*100 + learningIterations*50`,
`hunger = max(0, 100 - trunc(accuracy*100))` and
`status = trunc(accuracy*100)` — truncation toward zero, not rounding —
with `relationships` copied from the snapshot's `dependencies` /
`related_agents` keys when present and defaults accuracy `0.5`,
`learning_iterations` `0`, skills empty.  For the nonnegative accuracies
in range, truncation is the floor, as stated here. -/
theorem profile_formulas_floor (agent_id : AgentId) (st : AgentState)
    (hacc : 0 ≤ st.average_accuracy.getD (1/2)) :
    (convert_state_to_profile agent_id st).id = agent_id ∧
    (convert_state_to_profile agent_id st).Wealth =
      ((st.skills.getD []).length : ℤ) * 100 + st.learning_iterations.getD 0 * 50 ∧
    (convert_state_to_profile agent_id st).Hunger =
      max 0 (100 - ⌊st.average_accuracy.getD (1/2) * 100⌋) ∧
    (convert_state_to_profile agent_id st).Status =
      ⌊st.average_accuracy.getD (1/2) * 100⌋ ∧
    (convert_state_to_profile agent_id st).relationships =
      (if st.dependencies.isSome || st.related_agents.isSome then
        some ⟨st.dependencies, st.related_agents⟩ else none) := by
  have hfl : pyInt (st.average_accuracy.getD (1/2) * 100) =
      ⌊st.average_accuracy.getD (1/2) * 100⌋ :=
    pyInt_eq_floor (mul_nonneg hacc (by norm_num))
  refine ⟨rfl, rfl, ?_, ?_, rfl⟩
  · show max 0 (100 - pyInt (st.average_accuracy.getD (1/2) * 100)) = _
    rw [hfl]
  · show pyInt (st.average_accuracy.getD (1/2) * 100) = _
    rw [hfl]

/-- Witness for C6's amended statement at the spec's example snapshot
(two skills, three learning iterations, accuracy pinned to 1). -/
theorem profile_formulas_floor_witness :
    (convert_state_to_profile "a1" exState).id = "a1" ∧
    (convert_state_to_profile "a1" exState).Wealth =
      ((exState.skills.getD []).length : ℤ) * 100 + exState.learning_iterations.getD 0 * 50 ∧
    (convert_state_to_profile "a1" exState).Hunger =
      max 0 (100 - ⌊exState.average_accuracy.getD (1/2) * 100⌋) ∧
    (convert_state_to_profile "a1" exState).Status =
      ⌊exState.average_accuracy.getD (1/2) * 100⌋ ∧
    (convert_state_to_profile "a1" exState).relationships =
      (if exState.dependencies.isSome || exState.related_agents.isSome then
        some ⟨exState.dependencies, exState.related_agents⟩ else none) :=
  profile_formulas_floor "a1" exState zero_le_one

/-- C7.  `_convert_ranges_to_state` reconstructs from the midpoints of the
decoded ranges: `skillCount = max(1, ⌊wealthMid/100⌋)`,
`accuracy = statusMid/100`,
`learningIterations = max(0, ⌊(wealthMid - skillCount*100)/50⌋)` and
`needsTraining ↔ hungerMid > 50`.  The code truncates toward zero where
the claim floors, but under the `max` clamps the two agree, including for
negative midpoints. -/
theorem ranges_to_state_formulas (agent_id : AgentId) (r : Ranges) (block : BlockRecord) :
    ∃ s, convert_ranges_to_state agent_id (some r) block = some s ∧
      (s.skills.length : ℤ) = max 1 ⌊((r.Wealth.1 + r.Wealth.2) / 2) / 100⌋ ∧
      s.average_accuracy = ((r.Status.1 + r.Status.2) / 2) / 100 ∧
      s.learning_iterations =
        max 0 ⌊(((r.Wealth.1 + r.Wealth.2) / 2) -
          (max 1 ⌊((r.Wealth.1 + r.Wealth.2) / 2) / 100⌋) * 100) / 50⌋ ∧
      (s.needs_training = true ↔ (r.Hunger.1 + r.Hunger.2) / 2 > 50) := by
  refine ⟨_, rfl, ?_, rfl, ?_, by simp⟩
  · simp only [List.length_map, List.length_range]
    rw [max_one_pyInt]
    exact Int.toNat_of_nonneg (le_trans (by norm_num) (le_max_left 1 _))
  · rw [max_one_pyInt, max_zero_pyInt]

/-- Counterexample to C3: with a failing first peer and a healthy second
peer, the fan-out stops at the failure — only one peer is ever contacted,
so the block is not delivered to the remaining peer. -/
theorem broadcast_peer_failure_aborts_cex :
    broadcast_block [failPeer, okPeer] b0 = [Except.error "down"] ∧
    (broadcast_block [failPeer, okPeer] b0).length ≠ 2 := by
  constructor
  · rfl
  · decide

/-- C3 amended.  `broadcast_block` contacts peers in list order and stops
at the first peer whose `receive_block` fails: the peers before the
failure receive the block and report their own outcomes, the failing
peer's error propagates, and no later peer is contacted — there is no
per-peer error isolation. -/
theorem broadcast_stops_at_first_failure (ps1 ps2 : List (BlockRecord → Except String Bool))
    (pf : BlockRecord → Except String Bool) (b : BlockRecord) (e : String)
    (h1 : ∀ p ∈ ps1, ∃ r, p b = Except.ok r)
    (hf : pf b = Except.error e) :
    broadcast_block (ps1 ++ pf :: ps2) b = ps1.map (fun p => p b) ++ [Except.error e] := by
  induction ps1 with
  | nil =>
    simp only [List.nil_append, List.map_nil, broadcast_block, hf]
  | cons p ps ih =>
    obtain ⟨r, hr⟩ := h1 p (List.mem_cons_self p ps)
    simp only [List.cons_append, broadcast_block, hr, List.map_cons, List.append_eq]
    rw [ih (fun q hq => h1 q (List.mem_cons_of_mem p hq))]

/-- Witness for C3's amended statement: one healthy peer, then a failing
peer, then another healthy peer — the trailing peer is never contacted. -/
theorem broadcast_stops_at_first_failure_witness :
    broadcast_block ([okPeer] ++ failPeer :: [okPeer]) b0 =
      [okPeer].map (fun p => p b0) ++ [Except.error "down"] :=
  broadcast_stops_at_first_failure [okPeer] [okPeer] failPeer b0 "down"
    (fun p hp => by
      rw [List.mem_singleton] at hp
      subst hp
      exact ⟨true, rfl⟩)
    rfl

theorem linkedFrom_append {l : List BlockRecord} {p : Option Hash} {b : BlockRecord}
    (h : linkedFrom p l)
    (hb : b.prev_hash = l.getLast?.elim p (fun x => some x.hash)) :
    linkedFrom p (l ++ [b]) := by
  induction l generalizing p with
  | nil => exact ⟨hb, trivial⟩
  | cons x xs ih =>
    obtain ⟨hx, hxs⟩ := h
    refine ⟨hx, ih hxs ?_⟩
    cases xs with
    | nil => simpa using hb
    | cons y ys => simpa using hb

theorem add_block_agent_blocks (c : XenoChain) (aid : AgentId) (st : AgentState)
    (dt : ℚ) (deps : Option (List Hash)) (md : Option (List (String × String)))
    (now : ℚ) :
    ∃ blk : BlockRecord,
      blk.prev_hash = (c.agent_blocks aid).getLast?.map (·.hash) ∧
      (c.add_block aid st dt deps md now).1.agent_blocks aid =
        c.agent_blocks aid ++ [blk] := by
  refine ⟨⟨aid, c.xlsp.encode (convert_state_to_profile aid st) dt, now,
    (c.agent_blocks aid).getLast?.map (·.hash), deps.getD [], md.getD [],
    blockHash aid (c.xlsp.encode (convert_state_to_profile aid st) dt) now
      ((c.agent_blocks aid).getLast?.map (·.hash)) (deps.getD []) (md.getD [])⟩,
    rfl, ?_⟩
  simp [XenoChain.add_block]

theorem addBlocks_agent (c : XenoChain) (aid : AgentId) (inputs : List AppendInput)
    (h : linkedFrom none (c.agent_blocks aid)) :
    linkedFrom none ((addBlocks c aid inputs).agent_blocks aid) ∧
    ((addBlocks c aid inputs).agent_blocks aid).length =
      (c.agent_blocks aid).length + inputs.length := by
  induction inputs generalizing c with
  | nil => exact ⟨h, rfl⟩
  | cons inp rest ih =>
    obtain ⟨blk, hprev, heq⟩ :=
      add_block_agent_blocks c aid inp.state inp.delta_t inp.dependencies inp.metadata inp.now
    have h' : linkedFrom none
        ((c.add_block aid inp.state inp.delta_t inp.dependencies
          inp.metadata inp.now).1.agent_blocks aid) := by
      rw [heq]
      refine linkedFrom_append h ?_
      rw [hprev]
      cases (c.agent_blocks aid).getLast? <;> rfl
    obtain ⟨hl, hlen⟩ := ih _ h'
    refine ⟨hl, ?_⟩
    show ((addBlocks (c.add_block aid inp.state inp.delta_t inp.dependencies
      inp.metadata inp.now).1 aid rest).agent_blocks aid).length =
      (c.agent_blocks aid).length + (inp :: rest).length
    rw [hlen, heq]
    simp only [List.length_append, List.length_cons, List.length_nil]
    omega

theorem linkedFrom_indexed {l : List BlockRecord} {p : Option Hash}
    (h : linkedFrom p l) :
    (∀ h0 : 0 < l.length, (l.get ⟨0, h0⟩).prev_hash = p) ∧
    ∀ i, (hi : i + 1 < l.length) →
      (l.get ⟨i+1, hi⟩).prev_hash = some ((l.get ⟨i, Nat.lt_of_succ_lt hi⟩).hash) := by
  induction l generalizing p with
  | nil => exact ⟨fun h0 => absurd h0 (by simp), fun i hi => absurd hi (by simp)⟩
  | cons b bs ih =>
    obtain ⟨hb, hbs⟩ := h
    obtain ⟨ih0, ihS⟩ := ih hbs
    refine ⟨fun _ => hb, ?_⟩
    intro i hi
    cases i with
    | zero => exact ih0 (Nat.lt_of_succ_lt_succ hi)
    | succ j => exact ihS j (Nat.lt_of_succ_lt_succ hi)

/-- C5.  Starting from any state in which agent `aid` has no blocks,
any sequence of consecutive `add_block` calls for `aid` yields a
per-agent sequence with one block per call, whose first block has an
empty `prev_hash` and in which every later block's `prev_hash` is the
hash of its predecessor. -/
theorem append_chain_linked (c : XenoChain) (aid : AgentId)
    (inputs : List AppendInput) (h : c.agent_blocks aid = []) :
    ((addBlocks c aid inputs).agent_blocks aid).length = inputs.length ∧
    (∀ h0 : 0 < ((addBlocks c aid inputs).agent_blocks aid).length,
      (((addBlocks c aid inputs).agent_blocks aid).get ⟨0, h0⟩).prev_hash = none) ∧
    ∀ i, (hi : i + 1 < ((addBlocks c aid inputs).agent_blocks aid).length) →
      (((addBlocks c aid inputs).agent_blocks aid).get ⟨i+1, hi⟩).prev_hash =
        some ((((addBlocks c aid inputs).agent_blocks aid).get
          ⟨i, Nat.lt_of_succ_lt hi⟩).hash) := by
  have hl0 : linkedFrom none (c.agent_blocks aid) := by
    rw [h]
    trivial
  obtain ⟨hl, hlen⟩ := addBlocks_agent c aid inputs hl0
  obtain ⟨g0, gS⟩ := linkedFrom_indexed hl
  refine ⟨?_, g0, gS⟩
  rw [hlen, h]
  simp

/-- Witness for C5: two consecutive appends for agent `"a"` on a fresh
chain produce a two-block chain with the stated `prev_hash` links. -/
theorem append_chain_linked_witness :
    ((addBlocks emptyChain "a" [inp1, inp2]).agent_blocks "a").length = 2 ∧
    (∀ h0 : 0 < ((addBlocks emptyChain "a" [inp1, inp2]).agent_blocks "a").length,
      (((addBlocks emptyChain "a" [inp1, inp2]).agent_blocks "a").get ⟨0, h0⟩).prev_hash =
        none) ∧
    ∀ i, (hi : i + 1 < ((addBlocks emptyChain "a" [inp1, inp2]).agent_blocks "a").length) →
      (((addBlocks emptyChain "a" [inp1, inp2]).agent_blocks "a").get ⟨i+1, hi⟩).prev_hash =
        some ((((addBlocks emptyChain "a" [inp1, inp2]).agent_blocks "a").get
          ⟨i, Nat.lt_of_succ_lt hi⟩).hash) :=
  append_chain_linked emptyChain "a" [inp1, inp2] rfl

theorem find?_congr_mem {α : Type} {p q : α → Bool} {l : List α}
    (h : ∀ a ∈ l, p a = q a) : l.find? p = l.find? q := by
  induction l with
  | nil => rfl
  | cons a l ih =>
    have ha := h a (List.mem_cons_self a l)
    by_cases hp : p a = true
    · rw [List.find?_cons_of_pos _ hp, List.find?_cons_of_pos _ (ha ▸ hp)]
    · rw [List.find?_cons_of_neg _ hp, List.find?_cons_of_neg _ (ha ▸ hp)]
      exact ih (fun z hz => h z (List.mem_cons_of_mem a hz))

theorem foldl_min_keep (key : BlockRecord → ℚ) (b : BlockRecord) (l : List BlockRecord)
    (h : ∀ z ∈ l, key b ≤ key z) :
    l.foldl (fun best x => if key x < key best then x else best) b = b := by
  induction l with
  | nil => rfl
  | cons x xs ih =>
    rw [List.foldl_cons, if_neg (not_lt.mpr (h x (List.mem_cons_self x xs)))]
    exact ih (fun z hz => h z (List.mem_cons_of_mem x hz))

theorem foldl_min_eq_find? (key : BlockRecord → ℚ) (l : List BlockRecord)
    (b : BlockRecord) :
    (b :: l).find? (fun y => decide (∀ z ∈ b :: l, key y ≤ key z)) =
      some (l.foldl (fun best x => if key x < key best then x else best) b) := by
  induction l generalizing b with
  | nil =>
    rw [List.find?_cons_of_pos (p := fun y => decide (∀ z ∈ [b], key y ≤ key z)) _
      (by simp)]
    rfl
  | cons x xs ih =>
    by_cases hxb : key x < key b
    · have hPb : ¬ ((fun y => decide (∀ z ∈ b :: x :: xs, key y ≤ key z)) b = true) := by
        simp only [decide_eq_true_eq]
        intro hall
        exact absurd (hall x (by simp)) (not_le.mpr hxb)
      rw [List.find?_cons_of_neg
        (p := fun y => decide (∀ z ∈ b :: x :: xs, key y ≤ key z)) _ hPb]
      have hcong : ∀ y ∈ x :: xs,
          (fun y => decide (∀ z ∈ b :: x :: xs, key y ≤ key z)) y =
          (fun y => decide (∀ z ∈ x :: xs, key y ≤ key z)) y := by
        intro y _
        refine decide_eq_decide.mpr ⟨fun ha z hz => ha z (List.mem_cons_of_mem b hz), ?_⟩
        intro ha z hz
        rcases List.mem_cons.mp hz with rfl | hz'
        · exact le_of_lt (lt_of_le_of_lt (ha x (List.mem_cons_self x xs)) hxb)
        · exact ha z hz'
      rw [find?_congr_mem hcong, ih x, List.foldl_cons, if_pos hxb]
    · have hcong : ∀ y ∈ b :: x :: xs,
          (fun y => decide (∀ z ∈ b :: x :: xs, key y ≤ key z)) y =
          (fun y => decide (∀ z ∈ b :: xs, key y ≤ key z)) y := by
        intro y _
        refine decide_eq_decide.mpr ⟨?_, ?_⟩
        · intro ha z hz
          rcases List.mem_cons.mp hz with rfl | hz'
          · exact ha z (List.mem_cons_self z (x :: xs))
          · exact ha z (List.mem_cons_of_mem b (List.mem_cons_of_mem x hz'))
        · intro ha z hz
          rcases List.mem_cons.mp hz with rfl | hz'
          · exact ha z (List.mem_cons_self z xs)
          · rcases List.mem_cons.mp hz' with rfl | hz''
            · exact le_trans (ha b (List.mem_cons_self b xs)) (not_lt.mp hxb)
            · exact ha z (List.mem_cons_of_mem b hz'')
      rw [find?_congr_mem hcong, List.foldl_cons, if_neg hxb]
      by_cases hQb : ((fun y => decide (∀ z ∈ b :: xs, key y ≤ key z)) b = true)
      · rw [List.find?_cons_of_pos (p := fun y => decide (∀ z ∈ b :: xs, key y ≤ key z)) _
          hQb]
        have hall : ∀ z ∈ b :: xs, key b ≤ key z := by
          simpa only [decide_eq_true_eq] using hQb
        rw [foldl_min_keep key b xs (fun z hz => hall z (List.mem_cons_of_mem b hz))]
      · rw [List.find?_cons_of_neg (p := fun y => decide (∀ z ∈ b :: xs, key y ≤ key z)) _
          hQb]
        have hQx : ¬ ((fun y => decide (∀ z ∈ b :: xs, key y ≤ key z)) x = true) := by
          simp only [decide_eq_true_eq]
          intro hax
          apply hQb
          simp only [decide_eq_true_eq]
          intro z hz
          have hxb2 : key x ≤ key b := hax b (List.mem_cons_self b xs)
          have hbe : key b = key x := le_antisymm (not_lt.mp hxb) hxb2
          rw [hbe]
          exact hax z hz
        rw [List.find?_cons_of_neg (p := fun y => decide (∀ z ∈ b :: xs, key y ≤ key z)) _
          hQx]
        have hIH := ih b
        rw [List.find?_cons_of_neg (p := fun y => decide (∀ z ∈ b :: xs, key y ≤ key z)) _
          hQb] at hIH
        exact hIH

/-- C8.  `get_agent_at_time` returns the reconstruction (as in
`get_state`: decode then convert) of the first block in the agent's
sequence order that minimizes `|block.timestamp - t|`, and the not-found
value when the agent has no blocks (`specClosestBlock` is `none` exactly
on the empty sequence). -/
theorem get_agent_at_time_first_closest (c : XenoChain) (agent_id : AgentId)
    (t delta_t : ℚ) :
    c.get_agent_at_time agent_id t delta_t =
      match specClosestBlock t (c.agent_blocks agent_id) with
      | none => none
      | some blk =>
          convert_ranges_to_state agent_id (c.xlsp.decode blk.scan delta_t) blk := by
  unfold XenoChain.get_agent_at_time specClosestBlock
  cases hl : c.agent_blocks agent_id with
  | nil => rfl
  | cons b bs =>
    rw [foldl_min_eq_find? (fun y => |y.timestamp - t|) bs b]
    rfl
